import Mathlib

/-!
# Toast activator (`static/js/main.js`)

A shallow embedding of the page script

```
document.addEventListener('DOMContentLoaded', function () {
    let toastElList = [].slice.call(document.querySelectorAll('.toast'));
    let toastList = toastElList.map(function (toastEl) {
        return new bootstrap.Toast(toastEl, { autohide: true, delay: 5000 });
    });
    toastList.forEach(toast => toast.show());
    toastElList.forEach(function (toast) {
        toast.addEventListener('hidden.bs.toast', function () { toast.remove(); });
    });
});
```

The document is an ordered forest of elements (first child / next sibling),
`querySelectorAll` is the pre-order traversal filtered by class, `remove()`
detaches the subtree rooted at an element, and an event is delivered to the
listeners on its target and, when it bubbles, on the target's ancestors.
Calls into the widget library and the DOM are recorded in a trace.
-/

namespace ToastPage

/-- A DOM element: `id` stands for the identity of the JavaScript object,
`classList` for the tokens of its `class` attribute. -/
structure Element where
  id : Nat
  classList : List String
deriving DecidableEq, Repr

/-- An ordered forest of elements: `node el children next` is the element `el`
with its child list `children`, followed by its later siblings `next`. -/
inductive Forest where
  | nil : Forest
  | node (el : Element) (children : Forest) (next : Forest) : Forest
deriving DecidableEq, Repr

namespace Forest

/-- Elements of the forest in document (pre-)order. -/
def elements : Forest → List Element
  | nil => []
  | node e c s => e :: (elements c ++ elements s)

/-- Identities of the elements of the forest, in document order. -/
def ids (f : Forest) : List Nat := f.elements.map (fun e => e.id)

/-- Concatenation of two sibling lists. -/
def append : Forest → Forest → Forest
  | nil, g => g
  | node e c s, g => node e c (append s g)

/-- The forest without the subtree rooted at the element `x` (at every node
carrying the identity `x`; the elements of a document are distinct). -/
def remove (x : Nat) : Forest → Forest
  | nil => nil
  | node e c s => if e.id = x then remove x s else node e (remove x c) (remove x s)

/-- The subtree rooted at the element `x` (empty when `x` is not in the forest). -/
def subtree (x : Nat) : Forest → Forest
  | nil => nil
  | node e c s =>
    if e.id = x then node e c nil
    else if x ∈ ids c then subtree x c else subtree x s

/-- Proper ancestors of the element `x`, nearest first (`parentNode` chain). -/
def ancestors (x : Nat) : Forest → List Nat
  | nil => []
  | node e c s =>
    if e.id = x then []
    else if x ∈ ids c then ancestors x c ++ [e.id] else ancestors x s

end Forest

/-- The options object passed to `new bootstrap.Toast`. -/
structure ToastOptions where
  autohide : Bool
  delay : Nat
deriving DecidableEq, Repr

/-- A `bootstrap.Toast` instance: `handle` is the identity of the instance
(its rank among the instances constructed on the page). -/
structure Toast where
  handle : Nat
  element : Element
  options : ToastOptions
deriving DecidableEq, Repr

/-- An event listener registered by the script on the element `target` for
events named `type`. Its callback is `function () { toast.remove(); }`, where
`toast` is the element the listener is registered on. -/
structure Listener where
  target : Nat
  type : String
deriving DecidableEq, Repr

/-- Calls made by the script into the widget library and the DOM. -/
inductive Action where
  | construct (handle : Nat) (el : Nat) (options : ToastOptions)
  | show (handle : Nat)
  | addEventListener (el : Nat) (type : String)
  | handler (el : Nat)
  | remove (el : Nat) (connected : Bool)
deriving DecidableEq, Repr

/-- The state of the page: the document tree, the subtrees detached from it,
the widget instances constructed, the listeners registered, and the trace of
calls made so far. -/
structure Page where
  document : Forest
  detached : Forest
  toasts : List Toast
  listeners : List Listener
  trace : List Action
deriving DecidableEq, Repr

/-- A freshly parsed page: nothing constructed, registered or detached. -/
def Page.ofDocument (d : Forest) : Page :=
  { document := d, detached := Forest.nil, toasts := [], listeners := [], trace := [] }

/-- Models `document.querySelectorAll('.' + cls)`: the elements of the document
carrying the class `cls`, in document order. -/
def querySelectorAll (cls : String) (p : Page) : List Element :=
  p.document.elements.filter (fun e => decide (cls ∈ e.classList))

/-- Models `new bootstrap.Toast(el, options)`: a fresh instance bound to `el`. -/
def Toast.new (el : Element) (options : ToastOptions) (p : Page) : Toast × Page :=
  let t : Toast := { handle := p.toasts.length, element := el, options := options }
  (t, { p with toasts := p.toasts ++ [t],
               trace := p.trace ++ [Action.construct t.handle el.id options] })

/-- Models `toast.show()`; what the library then does is not part of the script. -/
def Toast.show (t : Toast) (p : Page) : Page :=
  { p with trace := p.trace ++ [Action.show t.handle] }

/-- Models `el.addEventListener(type, function () { el.remove(); })`. -/
def Element.addEventListener (el : Element) (type : String) (p : Page) : Page :=
  { p with listeners := p.listeners ++ [{ target := el.id, type := type }],
           trace := p.trace ++ [Action.addEventListener el.id type] }

/-- Models `x.remove()`: detach the subtree rooted at `x` from its parent. An element
that has no parent is left where it is. -/
def Page.remove (x : Nat) (p : Page) : Page :=
  if x ∈ p.document.ids then
    { p with document := p.document.remove x,
             detached := (p.document.subtree x).append p.detached,
             trace := p.trace ++ [Action.remove x true] }
  else if p.detached.ancestors x = [] then
    { p with trace := p.trace ++ [Action.remove x false] }
  else
    { p with detached := (p.detached.subtree x).append (p.detached.remove x),
             trace := p.trace ++ [Action.remove x false] }

/-- The callback of a listener: `function () { toast.remove(); }`. -/
def Listener.call (l : Listener) (p : Page) : Page :=
  Page.remove l.target { p with trace := p.trace ++ [Action.handler l.target] }

/-- Models `toastElList.map(function (toastEl) { return new bootstrap.Toast(...) })`. -/
def mapNewToast : List Element → Page → List Toast × Page
  | [], p => ([], p)
  | el :: rest, p =>
    let r := Toast.new el { autohide := true, delay := 5000 } p
    let rs := mapNewToast rest r.2
    (r.1 :: rs.1, rs.2)

/-- Models `toastList.forEach(toast => toast.show())`. -/
def forEachShow (toastList : List Toast) (p : Page) : Page :=
  toastList.foldl (fun q t => t.show q) p

/-- Models `toastElList.forEach(function (toast) { toast.addEventListener(...) })`. -/
def forEachListen (toastElList : List Element) (p : Page) : Page :=
  toastElList.foldl (fun q el => el.addEventListener "hidden.bs.toast" q) p

/-- The `DOMContentLoaded` listener of the script. -/
def domContentLoaded (p : Page) : Page :=
  let toastElList := querySelectorAll "toast" p
  let r := mapNewToast toastElList p
  let toastList := r.1
  let p1 := forEachShow toastList r.2
  forEachListen toastElList p1

/-- The page once the document `d` is parsed and the initializer has run. -/
def ready (d : Forest) : Page := domContentLoaded (Page.ofDocument d)

/-- The elements an event dispatched at `target` visits: the target, then,
when the event bubbles, its ancestors from the parent upwards. -/
def Page.eventPath (bubbles : Bool) (target : Nat) (p : Page) : List Nat :=
  if bubbles then
    target :: (if target ∈ p.document.ids then p.document.ancestors target
               else p.detached.ancestors target)
  else [target]

/-- The listeners for `type` on the elements of `path`, in invocation order. -/
def Page.listenersOn (type : String) (path : List Nat) (p : Page) : List Listener :=
  path.flatMap (fun n => p.listeners.filter (fun l => decide (l.target = n ∧ l.type = type)))

/-- Models `target.dispatchEvent(new Event(type, { bubbles }))`: the path and the
listeners are fixed when the dispatch starts, then the callbacks run. -/
def dispatch (bubbles : Bool) (type : String) (target : Nat) (p : Page) : Page :=
  (p.listenersOn type (p.eventPath bubbles target)).foldl (fun q l => l.call q) p

/-- The widget on `target` signals that its hide transition has finished. -/
def hidden (bubbles : Bool) (target : Nat) (p : Page) : Page :=
  dispatch bubbles "hidden.bs.toast" target p

/-- A sequence of hide-completion events, delivered in order. -/
def run (bubbles : Bool) (targets : List Nat) (p : Page) : Page :=
  targets.foldl (fun q t => hidden bubbles t q) p

/-- Identities of the elements matched by `querySelectorAll('.toast')`. -/
def matchedIds (d : Forest) : List Nat :=
  (querySelectorAll "toast" (Page.ofDocument d)).map (fun e => e.id)

/-- The `show` calls recorded in a trace, by widget handle. -/
def shows (tr : List Action) : List Nat :=
  tr.filterMap (fun a => match a with | Action.show h => some h | _ => none)

/-- The callback invocations recorded in a trace, by element. -/
def handlerCalls (tr : List Action) : List Nat :=
  tr.filterMap (fun a => match a with | Action.handler x => some x | _ => none)

/-- A toast with a header-less body, the usual widget markup. -/
def toastWithBody : Forest :=
  Forest.node ⟨1, ["toast"]⟩ (Forest.node ⟨2, ["toast-body"]⟩ Forest.nil Forest.nil) Forest.nil

/-- A toast nested inside another toast. -/
def nestedToasts : Forest :=
  Forest.node ⟨1, ["toast"]⟩ (Forest.node ⟨2, ["toast"]⟩ Forest.nil Forest.nil) Forest.nil

/-- Three sibling toasts in a container next to a paragraph. -/
def threeToasts : Forest :=
  Forest.node ⟨0, ["toast-container"]⟩
    (Forest.node ⟨1, ["toast"]⟩ (Forest.node ⟨4, ["toast-body"]⟩ Forest.nil Forest.nil)
      (Forest.node ⟨2, ["toast", "fade"]⟩ Forest.nil
        (Forest.node ⟨3, ["toast"]⟩ Forest.nil Forest.nil)))
    (Forest.node ⟨5, ["lead"]⟩ Forest.nil Forest.nil)

/-- Auxiliary: the forest without the subtrees rooted at the elements
selected by `K`. `Forest.remove x` is the case of a single element. -/
def Forest.prune (K : Nat → Bool) : Forest → Forest
  | Forest.nil => Forest.nil
  | Forest.node e c s =>
    if K e.id then Forest.prune K s else Forest.node e (Forest.prune K c) (Forest.prune K s)

/-- Auxiliary: the widgets `mapNewToast` builds for the elements `els` on a
page that holds `n` instances already. -/
def toastsFrom (n : Nat) : List Element → List Toast
  | [] => []
  | el :: rest =>
    { handle := n, element := el, options := { autohide := true, delay := 5000 } }
      :: toastsFrom (n + 1) rest

/-- Auxiliary: the elements are distinct and no detached element is also in
the document. -/
def Page.Inv (p : Page) : Prop :=
  p.document.ids.Nodup ∧ ∀ i ∈ p.detached.ids, i ∉ p.document.ids

/-- Auxiliary: the matched elements whose callback a hide-completion event
delivered at `target` reaches in the document `d`. -/
def reached (bubbles : Bool) (d : Forest) (target : Nat) : List Nat :=
  (if bubbles then target :: d.ancestors target else [target]).filter
    (fun i => decide (i ∈ matchedIds d))

/-- The `remove()` calls of a trace that took their element out of the
document, by element. -/
def removals (tr : List Action) : List Nat :=
  tr.filterMap (fun a => match a with | Action.remove x true => some x | _ => none)

/-- The elements passed to `new bootstrap.Toast` in a trace. -/
def constructed (tr : List Action) : List Nat :=
  tr.filterMap (fun a => match a with | Action.construct _ el _ => some el | _ => none)

/-- Auxiliary: either `x` is still in the document, no `remove()` has taken it
out and none of its ancestors is a matched element, or `x` is out of the
document and exactly one `remove()` took it out. -/
def Page.RemovedOnce (d : Forest) (x : Nat) (p : Page) : Prop :=
  (x ∈ p.document.ids ∧ (removals p.trace).count x = 0 ∧
      ∀ a ∈ p.document.ancestors x, a ∉ matchedIds d) ∨
    (x ∉ p.document.ids ∧ (removals p.trace).count x = 1)

/-- A page without any toast. -/
def plainPage : Forest :=
  Forest.node ⟨0, ["container"]⟩ (Forest.node ⟨1, ["lead"]⟩ Forest.nil Forest.nil) Forest.nil

/-! ## The document tree -/

namespace Forest

@[simp] theorem ids_nil : ids nil = [] := rfl

@[simp] theorem ids_node (e : Element) (c s : Forest) :
    ids (node e c s) = e.id :: (ids c ++ ids s) := by
  simp [ids, elements]

theorem ids_append (f g : Forest) : ids (append f g) = ids f ++ ids g := by
  induction f with
  | nil => simp [append]
  | node e c s _ ihs => simp [append, ihs]

theorem remove_eq_prune (x : Nat) (f : Forest) :
    remove x f = prune (fun i => decide (i = x)) f := by
  induction f with
  | nil => rfl
  | node e c s ihc ihs => simp [remove, prune, ihc, ihs]

theorem prune_prune (K K' : Nat → Bool) (f : Forest) :
    prune K (prune K' f) = prune (fun i => K' i || K i) f := by
  induction f with
  | nil => rfl
  | node e c s ihc ihs =>
    by_cases h' : K' e.id = true
    · simp [prune, h', ihs]
    · by_cases h : K e.id = true
      · simp [prune, h', h, ihs]
      · simp [prune, h', h, ihc, ihs]

theorem ids_prune_sublist (K : Nat → Bool) (f : Forest) :
    (ids (prune K f)).Sublist (ids f) := by
  induction f with
  | nil => simp [prune]
  | node e c s ihc ihs =>
    by_cases h : K e.id = true
    · simp only [prune, h, if_true, ids_node]
      exact (ihs.trans (List.sublist_append_right _ _)).trans (List.sublist_cons_self _ _)
    · have h' : K e.id = false := by simpa using h
      simp only [prune, h', ids_node, Bool.false_eq_true, if_false]
      exact (ihc.append ihs).cons₂ _

theorem mem_ids_of_mem_ids_prune {K : Nat → Bool} {f : Forest} {i : Nat}
    (h : i ∈ ids (prune K f)) : i ∈ ids f :=
  (ids_prune_sublist K f).subset h

theorem nodup_ids_prune {K : Nat → Bool} {f : Forest} (h : (ids f).Nodup) :
    (ids (prune K f)).Nodup :=
  h.sublist (ids_prune_sublist K f)

theorem not_of_mem_ids_prune {K : Nat → Bool} {f : Forest} {i : Nat}
    (h : i ∈ ids (prune K f)) : K i = false := by
  induction f with
  | nil => simp [prune] at h
  | node e c s ihc ihs =>
    by_cases hk : K e.id = true
    · simp only [prune, hk, if_true] at h
      exact ihs h
    · have hk' : K e.id = false := by simpa using hk
      simp only [prune, hk', ids_node, List.mem_cons, List.mem_append,
        Bool.false_eq_true, if_false] at h
      rcases h with h | h | h
      · rw [h]; exact hk'
      · exact ihc h
      · exact ihs h

theorem prune_congr {K K' : Nat → Bool} {f : Forest}
    (h : ∀ i ∈ ids f, K i = K' i) : prune K f = prune K' f := by
  induction f with
  | nil => rfl
  | node e c s ihc ihs =>
    have he : K e.id = K' e.id := h _ (by simp)
    have hc : prune K c = prune K' c := ihc (fun i hi => h i (by simp [hi]))
    have hs : prune K s = prune K' s := ihs (fun i hi => h i (by simp [hi]))
    simp [prune, he, hc, hs]

theorem prune_eq_self {K : Nat → Bool} {f : Forest}
    (h : ∀ i ∈ ids f, K i = false) : prune K f = f := by
  induction f with
  | nil => rfl
  | node e c s ihc ihs =>
    have he : K e.id = false := h _ (by simp)
    have hc : prune K c = c := ihc (fun i hi => h i (by simp [hi]))
    have hs : prune K s = s := ihs (fun i hi => h i (by simp [hi]))
    simp [prune, he, hc, hs]

/-- Pruning by `K` then `P` and pruning by `K` then `Q` agree when `P` and `Q`
agree on what `K` leaves. -/
theorem prune_or_congr {K P Q : Nat → Bool} {f : Forest}
    (h : ∀ i ∈ ids (prune K f), P i = Q i) :
    prune (fun i => K i || P i) f = prune (fun i => K i || Q i) f := by
  rw [← prune_prune P K f, ← prune_prune Q K f]
  exact prune_congr h

theorem ancestors_subset (x : Nat) (f : Forest) : ∀ a ∈ ancestors x f, a ∈ ids f := by
  induction f with
  | nil => simp [ancestors]
  | node e c s ihc ihs =>
    intro a ha
    by_cases h1 : e.id = x
    · simp [ancestors, h1] at ha
    · by_cases h2 : x ∈ ids c
      · simp only [ancestors, h1, h2, if_true, if_false, List.mem_append,
          List.mem_singleton] at ha
        rcases ha with ha | ha
        · simp [ihc a ha]
        · simp [ha]
      · simp only [ancestors, h1, h2, if_false] at ha
        simp [ihs a ha]

theorem ancestors_eq_nil_of_not_mem {x : Nat} {f : Forest} (h : x ∉ ids f) :
    ancestors x f = [] := by
  induction f with
  | nil => rfl
  | node e c s _ ihs =>
    simp only [ids_node, List.mem_cons, List.mem_append, not_or] at h
    have h1 : ¬ e.id = x := fun he => h.1 he.symm
    simp [ancestors, h1, h.2.1, ihs h.2.2]

/-- An element none of whose ancestors-or-self is selected survives pruning,
with the same ancestors. -/
theorem mem_prune_of_path {K : Nat → Bool} {x : Nat} {f : Forest}
    (hx : x ∈ ids f) (hk : K x = false) (ha : ∀ a ∈ ancestors x f, K a = false) :
    x ∈ ids (prune K f) ∧ ancestors x (prune K f) = ancestors x f := by
  induction f with
  | nil => simp at hx
  | node e c s ihc ihs =>
    by_cases h1 : e.id = x
    · have : K e.id = false := by rw [h1]; exact hk
      simp [prune, this, ancestors, h1, hk]
    · by_cases h2 : x ∈ ids c
      · have hanc : ancestors x (node e c s) = ancestors x c ++ [e.id] := by
          simp [ancestors, h1, h2]
        have he : K e.id = false := ha _ (by simp [hanc])
        have ih := ihc h2 (fun a h => ha a (by simp [hanc, h]))
        simp [prune, he, ancestors, h1, h2, ih.1, ih.2]
      · have hanc : ancestors x (node e c s) = ancestors x s := by
          simp [ancestors, h1, h2]
        have hs : x ∈ ids s := by
          simp only [ids_node, List.mem_cons, List.mem_append] at hx
          rcases hx with hx | hx | hx
          · exact absurd hx.symm h1
          · exact absurd hx h2
          · exact hx
        have ih := ihs hs (fun a h => ha a (by rw [hanc]; exact h))
        have h2' : x ∉ ids (prune K c) := fun h => h2 (mem_ids_of_mem_ids_prune h)
        by_cases he : K e.id = true
        · simp [prune, he, hanc, ih.1, ih.2]
        · simp [prune, he, ancestors, h1, h2, h2', ih.1, ih.2]

/-- In a forest of distinct elements, what survives pruning has no selected
ancestor. -/
theorem path_of_mem_prune {K : Nat → Bool} {x : Nat} {f : Forest}
    (hnd : (ids f).Nodup) (hx : x ∈ ids (prune K f)) :
    ∀ a ∈ ancestors x f, K a = false := by
  induction f with
  | nil => simp [ancestors]
  | node e c s ihc ihs =>
    simp only [ids_node, List.nodup_cons, List.mem_append, not_or] at hnd
    obtain ⟨⟨hec, hes⟩, hcs⟩ := hnd
    have hdisj := List.disjoint_of_nodup_append hcs
    have hc := (List.nodup_append.1 hcs).1
    have hs := (List.nodup_append.1 hcs).2.1
    intro a ha
    by_cases h1 : e.id = x
    · simp [ancestors, h1] at ha
    · by_cases h2 : x ∈ ids c
      · have hxs : x ∉ ids s := fun h => hdisj h2 h
        have hxps : x ∉ ids (prune K s) := fun h => hxs (mem_ids_of_mem_ids_prune h)
        simp only [ancestors, h1, h2, if_true, if_false, List.mem_append,
          List.mem_singleton] at ha
        by_cases he : K e.id = true
        · simp only [prune, he, if_true] at hx
          exact absurd hx hxps
        · have he' : K e.id = false := by simpa using he
          simp only [prune, he', ids_node, List.mem_cons, List.mem_append,
            Bool.false_eq_true, if_false] at hx
          rcases hx with hx | hx | hx
          · exact absurd hx.symm h1
          · rcases ha with ha | ha
            · exact ihc hc hx a ha
            · rw [ha]; exact he'
          · exact absurd hx hxps
      · have h2' : x ∉ ids (prune K c) := fun h => h2 (mem_ids_of_mem_ids_prune h)
        simp only [ancestors, h1, h2, if_false] at ha
        by_cases he : K e.id = true
        · simp only [prune, he, if_true] at hx
          exact ihs hs hx a ha
        · have he' : K e.id = false := by simpa using he
          simp only [prune, he', ids_node, List.mem_cons, List.mem_append,
            Bool.false_eq_true, if_false] at hx
          rcases hx with hx | hx | hx
          · exact absurd hx.symm h1
          · exact absurd hx h2'
          · exact ihs hs hx a ha

/-- The ancestors of an ancestor are the tail of the ancestor chain. -/
theorem ancestors_suffix {x a : Nat} {f : Forest} (hnd : (ids f).Nodup)
    (ha : a ∈ ancestors x f) : ∃ l, ancestors x f = l ++ a :: ancestors a f := by
  induction f with
  | nil => simp [ancestors] at ha
  | node e c s ihc ihs =>
    simp only [ids_node, List.nodup_cons, List.mem_append, not_or] at hnd
    obtain ⟨⟨hec, hes⟩, hcs⟩ := hnd
    have hdisj := List.disjoint_of_nodup_append hcs
    have hc := (List.nodup_append.1 hcs).1
    have hs := (List.nodup_append.1 hcs).2.1
    by_cases h1 : e.id = x
    · simp [ancestors, h1] at ha
    · by_cases h2 : x ∈ ids c
      · simp only [ancestors, h1, h2, if_true, if_false, List.mem_append,
          List.mem_singleton] at ha
        rcases ha with ha | ha
        · obtain ⟨l, hl⟩ := ihc hc ha
          have hac : a ∈ ids c := ancestors_subset x c a ha
          have hea : ¬ e.id = a := fun h => hec (h ▸ hac)
          refine ⟨l, ?_⟩
          simp [ancestors, h1, h2, hea, hac, hl]
        · refine ⟨ancestors x c, ?_⟩
          rw [ha]
          simp [ancestors, h1, h2]
      · simp only [ancestors, h1, h2, if_false] at ha
        obtain ⟨l, hl⟩ := ihs hs ha
        have has : a ∈ ids s := ancestors_subset x s a ha
        have hea : ¬ e.id = a := fun h => hes (h ▸ has)
        have hac : a ∉ ids c := fun h => hdisj h has
        refine ⟨l, ?_⟩
        simp [ancestors, h1, h2, hea, hac, hl]

theorem ancestors_trans {x a g : Nat} {f : Forest} (hnd : (ids f).Nodup)
    (ha : a ∈ ancestors x f) (hg : g ∈ ancestors a f) : g ∈ ancestors x f := by
  obtain ⟨l, hl⟩ := ancestors_suffix hnd ha
  rw [hl]; simp [hg]

/-- Two elements on one ancestor chain are comparable. -/
theorem ancestors_comparable {x i k : Nat} {f : Forest} (hnd : (ids f).Nodup)
    (hi : i ∈ ancestors x f) (hk : k ∈ x :: ancestors x f) :
    k ∈ i :: ancestors i f ∨ i ∈ ancestors k f := by
  rcases List.mem_cons.1 hk with hk | hk
  · subst hk; exact Or.inr hi
  · obtain ⟨l, hl⟩ := ancestors_suffix hnd hi
    obtain ⟨l', hl'⟩ := ancestors_suffix hnd hk
    rw [hl] at hl'
    rcases List.append_eq_append_iff.1 hl' with ⟨a', h1, h2⟩ | ⟨c', h1, h2⟩
    · cases a' with
      | nil =>
        simp only [List.nil_append, List.cons.injEq] at h2
        exact Or.inl (by simp [h2.1])
      | cons y ys =>
        simp only [List.cons_append, List.cons.injEq] at h2
        left
        rw [h2.2]; simp
    · cases c' with
      | nil =>
        simp only [List.nil_append, List.cons.injEq] at h2
        exact Or.inl (by simp [h2.1])
      | cons y ys =>
        simp only [List.cons_append, List.cons.injEq] at h2
        right
        rw [h2.2]; simp

theorem subtree_subset (x : Nat) (f : Forest) : ∀ i ∈ ids (subtree x f), i ∈ ids f := by
  induction f with
  | nil => simp [subtree]
  | node e c s ihc ihs =>
    intro i hi
    by_cases h1 : e.id = x
    · simp only [subtree, h1, if_true, ids_node, ids_nil, List.append_nil,
        List.mem_cons] at hi
      rcases hi with hi | hi
      · simp [hi, h1]
      · simp [hi]
    · by_cases h2 : x ∈ ids c
      · simp only [subtree, h1, h2, if_true, if_false] at hi
        simp [ihc i hi]
      · simp only [subtree, h1, h2, if_false] at hi
        simp [ihs i hi]

/-- In a forest of distinct elements, the subtree detached by `remove` shares
no element with what stays. -/
theorem subtree_disjoint_remove {x : Nat} {f : Forest} (hnd : (ids f).Nodup) :
    ∀ i ∈ ids (subtree x f), i ∉ ids (remove x f) := by
  induction f with
  | nil => simp [subtree]
  | node e c s ihc ihs =>
    simp only [ids_node, List.nodup_cons, List.mem_append, not_or] at hnd
    obtain ⟨⟨hec, hes⟩, hcs⟩ := hnd
    have hdisj := List.disjoint_of_nodup_append hcs
    have hc := (List.nodup_append.1 hcs).1
    have hs := (List.nodup_append.1 hcs).2.1
    intro i hi hr
    by_cases h1 : e.id = x
    · simp only [subtree, h1, if_true, ids_node, ids_nil, List.append_nil,
        List.mem_cons] at hi
      simp only [remove, h1, if_true] at hr
      have hrs : i ∈ ids s := by
        rw [remove_eq_prune] at hr; exact mem_ids_of_mem_ids_prune hr
      rcases hi with hi | hi
      · exact hes (by rw [h1, ← hi]; exact hrs)
      · exact hdisj hi hrs
    · simp only [remove, h1, if_false, ids_node, List.mem_cons, List.mem_append] at hr
      by_cases h2 : x ∈ ids c
      · simp only [subtree, h1, h2, if_true, if_false] at hi
        have hic : i ∈ ids c := subtree_subset x c i hi
        rcases hr with hr | hr | hr
        · exact hec (hr ▸ hic)
        · exact ihc hc i hi hr
        · rw [remove_eq_prune] at hr
          exact hdisj hic (mem_ids_of_mem_ids_prune hr)
      · simp only [subtree, h1, h2, if_false] at hi
        have his : i ∈ ids s := subtree_subset x s i hi
        rcases hr with hr | hr | hr
        · exact hes (hr ▸ his)
        · rw [remove_eq_prune] at hr
          exact hdisj (mem_ids_of_mem_ids_prune hr) his
        · exact ihs hs i hi hr

end Forest

/-! ## The initializer -/

theorem mapNewToast_eq (els : List Element) (p : Page) :
    mapNewToast els p =
      (toastsFrom p.toasts.length els,
        { p with
          toasts := p.toasts ++ toastsFrom p.toasts.length els,
          trace := p.trace ++ (toastsFrom p.toasts.length els).map
            (fun t => Action.construct t.handle t.element.id t.options) }) := by
  induction els generalizing p with
  | nil => simp [mapNewToast, toastsFrom]
  | cons el rest ih =>
    simp [mapNewToast, toastsFrom, ih, Toast.new, List.append_assoc]

theorem forEachShow_eq (ts : List Toast) (p : Page) :
    forEachShow ts p =
      { p with trace := p.trace ++ ts.map (fun t => Action.show t.handle) } := by
  unfold forEachShow
  induction ts generalizing p with
  | nil => simp
  | cons t rest ih =>
    rw [List.foldl_cons, ih]
    simp [Toast.show, List.append_assoc]

theorem forEachListen_eq (els : List Element) (p : Page) :
    forEachListen els p =
      { p with
        listeners := p.listeners ++ els.map
          (fun e => ({ target := e.id, type := "hidden.bs.toast" } : Listener)),
        trace := p.trace ++ els.map
          (fun e => Action.addEventListener e.id "hidden.bs.toast") } := by
  unfold forEachListen
  induction els generalizing p with
  | nil => simp
  | cons e rest ih =>
    rw [List.foldl_cons, ih]
    simp [Element.addEventListener, List.append_assoc]

/-- The page the initializer leaves, field by field. -/
theorem ready_eq (d : Forest) :
    ready d =
      { document := d
        detached := Forest.nil
        toasts := toastsFrom 0 (querySelectorAll "toast" (Page.ofDocument d))
        listeners := (querySelectorAll "toast" (Page.ofDocument d)).map
          (fun e => ({ target := e.id, type := "hidden.bs.toast" } : Listener))
        trace :=
          (toastsFrom 0 (querySelectorAll "toast" (Page.ofDocument d))).map
              (fun t => Action.construct t.handle t.element.id t.options)
            ++ (toastsFrom 0 (querySelectorAll "toast" (Page.ofDocument d))).map
              (fun t => Action.show t.handle)
            ++ (querySelectorAll "toast" (Page.ofDocument d)).map
              (fun e => Action.addEventListener e.id "hidden.bs.toast") } := by
  simp [ready, domContentLoaded, mapNewToast_eq, forEachShow_eq, forEachListen_eq,
    Page.ofDocument]

theorem toastsFrom_length (n : Nat) (els : List Element) :
    (toastsFrom n els).length = els.length := by
  induction els generalizing n with
  | nil => rfl
  | cons e rest ih => simp [toastsFrom, ih]

theorem toastsFrom_element (n : Nat) (els : List Element) :
    (toastsFrom n els).map (fun t => t.element) = els := by
  induction els generalizing n with
  | nil => rfl
  | cons e rest ih => simp [toastsFrom, ih]

theorem toastsFrom_handle (n : Nat) (els : List Element) :
    (toastsFrom n els).map (fun t => t.handle) = List.range' n els.length := by
  induction els generalizing n with
  | nil => rfl
  | cons e rest ih => simp [toastsFrom, ih, List.range'_succ]

theorem toastsFrom_options (n : Nat) (els : List Element) :
    ∀ t ∈ toastsFrom n els, t.options = { autohide := true, delay := 5000 } := by
  induction els generalizing n with
  | nil => simp [toastsFrom]
  | cons e rest ih =>
    intro t ht
    simp only [toastsFrom, List.mem_cons] at ht
    rcases ht with ht | ht
    · rw [ht]
    · exact ih _ t ht

/-! ## Removal and event delivery -/

theorem Forest.remove_eq_self {x : Nat} {f : Forest} (h : x ∉ f.ids) : f.remove x = f := by
  rw [Forest.remove_eq_prune]
  apply Forest.prune_eq_self
  intro i hi
  simp only [decide_eq_false_iff_not]
  rintro rfl
  exact h hi

theorem Page.remove_document (x : Nat) (p : Page) :
    (Page.remove x p).document = p.document.remove x := by
  unfold Page.remove
  by_cases h : x ∈ p.document.ids
  · simp [h]
  · rw [Forest.remove_eq_self h]
    split_ifs <;> rfl

theorem Page.remove_listeners (x : Nat) (p : Page) :
    (Page.remove x p).listeners = p.listeners := by
  unfold Page.remove
  split_ifs <;> rfl

theorem Page.remove_toasts (x : Nat) (p : Page) :
    (Page.remove x p).toasts = p.toasts := by
  unfold Page.remove
  split_ifs <;> rfl

theorem Page.remove_trace (x : Nat) (p : Page) :
    (Page.remove x p).trace = p.trace ++ [Action.remove x (decide (x ∈ p.document.ids))] := by
  unfold Page.remove
  split_ifs with h1 h2 <;> simp [h1]

theorem Page.remove_inv {x : Nat} {p : Page} (h : p.Inv) : (Page.remove x p).Inv := by
  obtain ⟨hnd, hdis⟩ := h
  unfold Page.remove
  by_cases h1 : x ∈ p.document.ids
  · simp only [h1, if_true]
    refine ⟨?_, ?_⟩
    · show (p.document.remove x).ids.Nodup
      rw [Forest.remove_eq_prune]
      exact Forest.nodup_ids_prune hnd
    · intro i hi
      show i ∉ (p.document.remove x).ids
      have hi' : i ∈ (p.document.subtree x).ids ++ p.detached.ids := by
        rw [← Forest.ids_append]; exact hi
      rcases List.mem_append.1 hi' with hi' | hi'
      · exact Forest.subtree_disjoint_remove hnd i hi'
      · intro hr
        rw [Forest.remove_eq_prune] at hr
        exact hdis i hi' (Forest.mem_ids_of_mem_ids_prune hr)
  · simp only [h1, if_false]
    by_cases h2 : p.detached.ancestors x = []
    · simp only [h2, if_true]
      exact ⟨hnd, hdis⟩
    · simp only [h2, if_false]
      refine ⟨hnd, ?_⟩
      intro i hi
      show i ∉ p.document.ids
      have hi' : i ∈ (p.detached.subtree x).ids ++ (p.detached.remove x).ids := by
        rw [← Forest.ids_append]; exact hi
      rcases List.mem_append.1 hi' with hi' | hi'
      · exact hdis i (Forest.subtree_subset x _ i hi')
      · rw [Forest.remove_eq_prune] at hi'
        exact hdis i (Forest.mem_ids_of_mem_ids_prune hi')

theorem Listener.call_document (l : Listener) (p : Page) :
    (l.call p).document = p.document.remove l.target := by
  simp [Listener.call, Page.remove_document]

theorem Listener.call_listeners (l : Listener) (p : Page) :
    (l.call p).listeners = p.listeners := by
  simp [Listener.call, Page.remove_listeners]

theorem Listener.call_toasts (l : Listener) (p : Page) :
    (l.call p).toasts = p.toasts := by
  simp [Listener.call, Page.remove_toasts]

theorem Listener.call_trace (l : Listener) (p : Page) :
    (l.call p).trace = p.trace ++
      [Action.handler l.target, Action.remove l.target (decide (l.target ∈ p.document.ids))] := by
  simp [Listener.call, Page.remove_trace]

theorem Listener.call_inv {l : Listener} {p : Page} (h : p.Inv) : (l.call p).Inv := by
  unfold Listener.call
  exact Page.remove_inv h

theorem foldl_call_document (ls : List Listener) (p : Page) :
    (ls.foldl (fun q l => l.call q) p).document =
      p.document.prune (fun i => decide (i ∈ ls.map (fun l => l.target))) := by
  induction ls generalizing p with
  | nil =>
    simp only [List.foldl_nil, List.map_nil, List.not_mem_nil, decide_False]
    exact (Forest.prune_eq_self (fun _ _ => rfl)).symm
  | cons l rest ih =>
    rw [List.foldl_cons, ih, Listener.call_document, Forest.remove_eq_prune,
      Forest.prune_prune]
    apply Forest.prune_congr
    intro i _
    simp [Bool.decide_or]

theorem foldl_call_listeners (ls : List Listener) (p : Page) :
    (ls.foldl (fun q l => l.call q) p).listeners = p.listeners := by
  induction ls generalizing p with
  | nil => rfl
  | cons l rest ih => rw [List.foldl_cons, ih, Listener.call_listeners]

theorem foldl_call_toasts (ls : List Listener) (p : Page) :
    (ls.foldl (fun q l => l.call q) p).toasts = p.toasts := by
  induction ls generalizing p with
  | nil => rfl
  | cons l rest ih => rw [List.foldl_cons, ih, Listener.call_toasts]

theorem foldl_call_inv (ls : List Listener) {p : Page} (h : p.Inv) :
    (ls.foldl (fun q l => l.call q) p).Inv := by
  induction ls generalizing p with
  | nil => exact h
  | cons l rest ih =>
    rw [List.foldl_cons]
    exact ih (Listener.call_inv h)

theorem foldl_call_handlerCalls (ls : List Listener) (p : Page) :
    handlerCalls (ls.foldl (fun q l => l.call q) p).trace =
      handlerCalls p.trace ++ ls.map (fun l => l.target) := by
  induction ls generalizing p with
  | nil => simp
  | cons l rest ih =>
    rw [List.foldl_cons, ih, Listener.call_trace]
    simp [handlerCalls, List.filterMap_append]

theorem mem_listenersOn_target {ty : String} {path : List Nat} {p : Page} {i : Nat} :
    i ∈ (p.listenersOn ty path).map (fun l => l.target) ↔
      i ∈ path ∧ ({ target := i, type := ty } : Listener) ∈ p.listeners := by
  simp only [Page.listenersOn, List.mem_map, List.mem_flatMap, List.mem_filter,
    decide_eq_true_eq]
  constructor
  · rintro ⟨l, ⟨n, hn, hl, h1, h2⟩, rfl⟩
    subst h2
    exact ⟨h1 ▸ hn, hl⟩
  · rintro ⟨hp, hl⟩
    exact ⟨_, ⟨i, hp, hl, rfl, rfl⟩, rfl⟩

theorem dispatch_document (b : Bool) (ty : String) (t : Nat) (p : Page) :
    (dispatch b ty t p).document =
      p.document.prune (fun i => decide (i ∈ p.eventPath b t ∧
        ({ target := i, type := ty } : Listener) ∈ p.listeners)) := by
  unfold dispatch
  rw [foldl_call_document]
  apply Forest.prune_congr
  intro i _
  exact decide_eq_decide.2 mem_listenersOn_target

theorem mem_ready_listeners {d : Forest} {i : Nat} :
    ({ target := i, type := "hidden.bs.toast" } : Listener) ∈ (ready d).listeners ↔
      i ∈ matchedIds d := by
  simp [ready_eq, matchedIds]

theorem run_snoc (b : Bool) (evs : List Nat) (t : Nat) (p : Page) :
    run b (evs ++ [t]) p = hidden b t (run b evs p) := by
  simp [run, List.foldl_append]

/-! ## The document after a sequence of hide-completion events -/

theorem mem_reached {b : Bool} {d : Forest} {t i : Nat} :
    i ∈ reached b d t ↔
      i ∈ (if b then t :: d.ancestors t else [t]) ∧ i ∈ matchedIds d := by
  simp [reached, List.mem_filter]

/-- With bubbling events, a matched ancestor of a reached element is reached. -/
theorem reached_upward {d : Forest} (hnd : d.ids.Nodup) {evs : List Nat} {k i : Nat}
    (hk : k ∈ evs.flatMap (reached true d)) (hi : i ∈ d.ancestors k)
    (him : i ∈ matchedIds d) : i ∈ evs.flatMap (reached true d) := by
  obtain ⟨t, ht, hkt⟩ := List.mem_flatMap.1 hk
  refine List.mem_flatMap.2 ⟨t, ht, ?_⟩
  rw [mem_reached] at hkt ⊢
  refine ⟨?_, him⟩
  simp only [if_true, List.mem_cons] at hkt ⊢
  rcases hkt.1 with h | h
  · right; rw [← h]; exact hi
  · right; exact Forest.ancestors_trans hnd h hi

/-- On what is left of the document, the callbacks an event reaches are those
it would have reached in the initial document. -/
theorem eventPath_stable {d : Forest} (hnd : d.ids.Nodup) (b : Bool) (evs : List Nat)
    (t : Nat) (p : Page) (hinv : p.Inv)
    (hdoc : p.document = d.prune (fun i => decide (i ∈ evs.flatMap (reached b d))))
    {i : Nat} (hi : i ∈ p.document.ids) (him : i ∈ matchedIds d) :
    i ∈ p.eventPath b t ↔ i ∈ (if b then t :: d.ancestors t else [t]) := by
  cases b with
  | false => simp [Page.eventPath]
  | true =>
    have hi' : i ∈ (d.prune (fun i => decide (i ∈ evs.flatMap (reached true d)))).ids := by
      rw [← hdoc]; exact hi
    have hKi := Forest.not_of_mem_ids_prune hi'
    by_cases ht : t ∈ p.document.ids
    · have ht' : t ∈ (d.prune (fun i => decide (i ∈ evs.flatMap (reached true d)))).ids := by
        rw [← hdoc]; exact ht
      have h1 := Forest.path_of_mem_prune hnd ht'
      have h2 := Forest.not_of_mem_ids_prune ht'
      have h3 := (Forest.mem_prune_of_path (Forest.mem_ids_of_mem_ids_prune ht') h2 h1).2
      simp only [Page.eventPath, if_true, ht, hdoc, h3]
      rw [← hdoc]; simp [ht]
    · have hit : i ≠ t := fun h => ht (h ▸ hi)
      have hL : ¬ i ∈ p.eventPath true t := by
        simp only [Page.eventPath, if_true, ht, if_false, List.mem_cons, not_or]
        refine ⟨hit, fun h => ?_⟩
        exact hinv.2 i (Forest.ancestors_subset t _ i h) hi
      have hR : ¬ i ∈ (if true = true then t :: d.ancestors t else [t]) := by
        simp only [if_true, List.mem_cons, not_or]
        refine ⟨hit, fun hia => ?_⟩
        have htd : t ∈ d.ids := by
          by_contra hn
          rw [Forest.ancestors_eq_nil_of_not_mem hn] at hia
          simp at hia
        have hex : ∃ k ∈ t :: d.ancestors t,
            decide (k ∈ evs.flatMap (reached true d)) = true := by
          by_contra hn
          push_neg at hn
          have hn' : ∀ k ∈ t :: d.ancestors t,
              decide (k ∈ evs.flatMap (reached true d)) = false := by
            intro k hk
            simpa using hn k hk
          have := (Forest.mem_prune_of_path htd (hn' t (by simp))
            (fun a ha => hn' a (by simp [ha]))).1
          rw [← hdoc] at this
          exact ht this
        obtain ⟨k, hk, hKk⟩ := hex
        rcases Forest.ancestors_comparable hnd hia hk with h | h
        · rcases List.mem_cons.1 h with h | h
          · rw [h, hKi] at hKk; exact Bool.noConfusion hKk
          · rw [Forest.path_of_mem_prune hnd hi' k h] at hKk; exact Bool.noConfusion hKk
        · have := reached_upward hnd (of_decide_eq_true hKk) h him
          rw [decide_eq_true this] at hKi
          exact Bool.noConfusion hKi
      exact ⟨fun h => absurd h hL, fun h => absurd h hR⟩

theorem hidden_document_step {d : Forest} (hnd : d.ids.Nodup) (b : Bool) (evs : List Nat)
    (t : Nat) (p : Page) (hinv : p.Inv) (hl : p.listeners = (ready d).listeners)
    (hdoc : p.document = d.prune (fun i => decide (i ∈ evs.flatMap (reached b d)))) :
    (hidden b t p).document =
      d.prune (fun i => decide (i ∈ (evs ++ [t]).flatMap (reached b d))) := by
  have hR : d.prune (fun i => decide (i ∈ (evs ++ [t]).flatMap (reached b d))) =
      d.prune (fun i => decide (i ∈ evs.flatMap (reached b d))
        || decide (i ∈ reached b d t)) := by
    apply Forest.prune_congr
    intro i _
    simp [Bool.decide_or]
  rw [hR]
  unfold hidden
  rw [dispatch_document]
  have hstep : (p.document.prune (fun i => decide (i ∈ p.eventPath b t ∧
        ({ target := i, type := "hidden.bs.toast" } : Listener) ∈ p.listeners))) =
      d.prune (fun i => decide (i ∈ evs.flatMap (reached b d))
        || decide (i ∈ p.eventPath b t ∧
          ({ target := i, type := "hidden.bs.toast" } : Listener) ∈ p.listeners)) := by
    conv_lhs => rw [hdoc]
    rw [Forest.prune_prune]
  rw [hstep]
  apply Forest.prune_or_congr
  intro i hi
  apply decide_eq_decide.2
  rw [hl, mem_ready_listeners, mem_reached]
  constructor
  · rintro ⟨h1, h2⟩
    exact ⟨(eventPath_stable hnd b evs t p hinv hdoc (hdoc ▸ hi) h2).1 h1, h2⟩
  · rintro ⟨h1, h2⟩
    exact ⟨(eventPath_stable hnd b evs t p hinv hdoc (hdoc ▸ hi) h2).2 h1, h2⟩

theorem hidden_inv {b : Bool} {t : Nat} {p : Page} (h : p.Inv) : (hidden b t p).Inv := by
  unfold hidden dispatch
  exact foldl_call_inv _ h

theorem hidden_listeners (b : Bool) (t : Nat) (p : Page) :
    (hidden b t p).listeners = p.listeners := by
  unfold hidden dispatch
  exact foldl_call_listeners _ p

theorem hidden_toasts (b : Bool) (t : Nat) (p : Page) :
    (hidden b t p).toasts = p.toasts := by
  unfold hidden dispatch
  exact foldl_call_toasts _ p

theorem run_listeners (b : Bool) (evs : List Nat) (p : Page) :
    (run b evs p).listeners = p.listeners := by
  induction evs using List.reverseRecOn with
  | nil => rfl
  | append_singleton l a ih => rw [run_snoc, hidden_listeners, ih]

theorem run_toasts (b : Bool) (evs : List Nat) (p : Page) :
    (run b evs p).toasts = p.toasts := by
  induction evs using List.reverseRecOn with
  | nil => rfl
  | append_singleton l a ih => rw [run_snoc, hidden_toasts, ih]

/-- After any sequence of hide-completion events the document is the initial
document without the subtrees of the matched elements the events reached. -/
theorem run_document {d : Forest} (hnd : d.ids.Nodup) (b : Bool) (evs : List Nat) :
    (run b evs (ready d)).Inv ∧
      (run b evs (ready d)).document =
        d.prune (fun i => decide (i ∈ evs.flatMap (reached b d))) := by
  induction evs using List.reverseRecOn with
  | nil =>
    refine ⟨?_, ?_⟩
    · simp only [run, List.foldl_nil, ready_eq]
      exact ⟨hnd, by simp⟩
    · simp only [run, List.foldl_nil, ready_eq, List.flatMap_nil, List.not_mem_nil,
        decide_False]
      exact (Forest.prune_eq_self (fun _ _ => rfl)).symm
  | append_singleton l a ih =>
    rw [run_snoc]
    exact ⟨hidden_inv ih.1,
      hidden_document_step hnd b l a _ ih.1 (run_listeners b l _) ih.2⟩

/-! ## Traces -/

theorem matchedIds_sublist (d : Forest) : (matchedIds d).Sublist d.ids := by
  unfold matchedIds querySelectorAll Forest.ids
  exact (List.filter_sublist _).map _

theorem matchedIds_nodup {d : Forest} (hnd : d.ids.Nodup) : (matchedIds d).Nodup :=
  hnd.sublist (matchedIds_sublist d)

theorem matchedIds_subset {d : Forest} {i : Nat} (h : i ∈ matchedIds d) : i ∈ d.ids :=
  (matchedIds_sublist d).subset h

theorem mem_querySelectorAll {cls : String} {p : Page} {e : Element} :
    e ∈ querySelectorAll cls p ↔ e ∈ p.document.elements ∧ cls ∈ e.classList := by
  simp [querySelectorAll, List.mem_filter]

/-- In a document of distinct elements, an element without the class is not
among the matched ones. -/
theorem not_mem_matchedIds {d : Forest} (hnd : d.ids.Nodup) {e : Element}
    (he : e ∈ d.elements) (hc : "toast" ∉ e.classList) : e.id ∉ matchedIds d := by
  intro h
  simp only [matchedIds, List.mem_map] at h
  obtain ⟨e', he', hid⟩ := h
  rw [mem_querySelectorAll] at he'
  have : e' = e := List.inj_on_of_nodup_map hnd he'.1 he hid
  exact hc (this ▸ he'.2)

theorem mem_listenersOn {ty : String} {path : List Nat} {p : Page} {l : Listener}
    (h : l ∈ p.listenersOn ty path) : l ∈ p.listeners ∧ l.type = ty ∧ l.target ∈ path := by
  simp only [Page.listenersOn, List.mem_flatMap, List.mem_filter, decide_eq_true_eq] at h
  obtain ⟨n, hn, hl, h1, h2⟩ := h
  exact ⟨hl, h2, h1 ▸ hn⟩

theorem target_mem_matchedIds {d : Forest} {l : Listener} (h : l ∈ (ready d).listeners) :
    l.target ∈ matchedIds d := by
  simp only [ready_eq, List.mem_map] at h
  obtain ⟨e, he, rfl⟩ := h
  exact List.mem_map.2 ⟨e, he, rfl⟩

theorem foldl_call_trace_mem (ls : List Listener) (p : Page) (a : Action)
    (h : a ∈ (ls.foldl (fun q l => l.call q) p).trace) :
    a ∈ p.trace ∨ ∃ l ∈ ls, a = Action.handler l.target ∨ ∃ c, a = Action.remove l.target c := by
  induction ls generalizing p with
  | nil => exact Or.inl h
  | cons l rest ih =>
    rw [List.foldl_cons] at h
    rcases ih _ h with h1 | ⟨l', hl', h1⟩
    · rw [Listener.call_trace] at h1
      simp only [List.mem_append, List.mem_cons, List.mem_singleton, List.not_mem_nil,
        or_false] at h1
      rcases h1 with h1 | h1 | h1
      · exact Or.inl h1
      · exact Or.inr ⟨l, by simp, Or.inl h1⟩
      · exact Or.inr ⟨l, by simp, Or.inr ⟨_, h1⟩⟩
    · exact Or.inr ⟨l', by simp [hl'], h1⟩

/-- After the initializer, event delivery only adds callback runs and
`remove()` calls on matched elements to the trace. -/
theorem run_trace_mem (d : Forest) (b : Bool) (evs : List Nat) (a : Action)
    (h : a ∈ (run b evs (ready d)).trace) :
    a ∈ (ready d).trace ∨
      ∃ x ∈ matchedIds d, a = Action.handler x ∨ ∃ c, a = Action.remove x c := by
  induction evs using List.reverseRecOn with
  | nil => exact Or.inl h
  | append_singleton l t ih =>
    rw [run_snoc] at h
    unfold hidden dispatch at h
    rcases foldl_call_trace_mem _ _ a h with h1 | ⟨l', hl', h1⟩
    · exact ih h1
    · have hl := (mem_listenersOn hl').1
      rw [run_listeners] at hl
      exact Or.inr ⟨l'.target, target_mem_matchedIds hl, h1⟩

theorem ready_trace_mem (d : Forest) (a : Action) (h : a ∈ (ready d).trace) :
    (∃ t ∈ (ready d).toasts, a = Action.construct t.handle t.element.id t.options) ∨
      (∃ t ∈ (ready d).toasts, a = Action.show t.handle) ∨
      (∃ e ∈ querySelectorAll "toast" (Page.ofDocument d),
        a = Action.addEventListener e.id "hidden.bs.toast") := by
  simp only [ready_eq, List.mem_append, List.mem_map] at h ⊢
  rcases h with (⟨t, ht, rfl⟩ | ⟨t, ht, rfl⟩) | ⟨e, he, rfl⟩
  · exact Or.inl ⟨t, ht, rfl⟩
  · exact Or.inr (Or.inl ⟨t, ht, rfl⟩)
  · exact Or.inr (Or.inr ⟨e, he, rfl⟩)

theorem ready_toast_element_mem {d : Forest} {t : Toast} (h : t ∈ (ready d).toasts) :
    t.element ∈ querySelectorAll "toast" (Page.ofDocument d) := by
  simp only [ready_eq] at h
  have := List.mem_map_of_mem (fun t => t.element) h
  rwa [toastsFrom_element] at this

theorem count_listener_targets (ty : String) (x : Nat) (ls : List Listener) :
    ((ls.filter (fun l => decide (l.target = x ∧ l.type = ty))).map
      (fun l => l.target)).count x = ls.count { target := x, type := ty } := by
  induction ls with
  | nil => rfl
  | cons l rest ih =>
    by_cases h : l.target = x ∧ l.type = ty
    · have hl : l = { target := x, type := ty } := by
        cases l; simp only [Listener.mk.injEq]; exact h
      rw [List.filter_cons_of_pos (by simpa using h), List.map_cons, List.count_cons, ih,
        List.count_cons]
      simp [h.1, hl]
    · have hl : ¬ l = { target := x, type := ty } := by
        intro hl; apply h; rw [hl]; exact ⟨rfl, rfl⟩
      have hl' : ¬ (l == ({ target := x, type := ty } : Listener)) = true := by
        simpa using hl
      rw [List.filter_cons_of_neg (by simpa using h), ih, List.count_cons]
      simp [hl']

theorem count_ready_listener {d : Forest} (hnd : d.ids.Nodup) {x : Nat}
    (hx : x ∈ matchedIds d) :
    (ready d).listeners.count { target := x, type := "hidden.bs.toast" } = 1 := by
  have h1 : (ready d).listeners =
      (matchedIds d).map (fun i => ({ target := i, type := "hidden.bs.toast" } : Listener)) := by
    simp [ready_eq, matchedIds]
  have hinj : Function.Injective
      (fun i : Nat => ({ target := i, type := "hidden.bs.toast" } : Listener)) := by
    intro a b hab
    simpa using hab
  rw [h1, List.count_map_of_injective _ _ hinj]
  exact List.count_eq_one_of_mem (matchedIds_nodup hnd) hx

/-- A callback registered on `x` runs once for each occurrence of `x` on the
path of the event. -/
theorem count_listenersOn {d : Forest} (hnd : d.ids.Nodup) {x : Nat}
    (hx : x ∈ matchedIds d) (p : Page) (hl : p.listeners = (ready d).listeners)
    (path : List Nat) :
    ((p.listenersOn "hidden.bs.toast" path).map (fun l => l.target)).count x =
      path.count x := by
  induction path with
  | nil => simp [Page.listenersOn]
  | cons n rest ih =>
    have hsplit : p.listenersOn "hidden.bs.toast" (n :: rest) =
        p.listeners.filter (fun l => decide (l.target = n ∧ l.type = "hidden.bs.toast"))
          ++ p.listenersOn "hidden.bs.toast" rest := by
      simp [Page.listenersOn, List.flatMap_cons]
    rw [hsplit, List.map_append, List.count_append, ih, List.count_cons]
    by_cases hn : n = x
    · subst hn
      rw [count_listener_targets, hl, count_ready_listener hnd hx]
      simp [Nat.add_comm]
    · have hz : ((p.listeners.filter (fun l =>
          decide (l.target = n ∧ l.type = "hidden.bs.toast"))).map
            (fun l => l.target)).count x = 0 := by
        apply List.count_eq_zero_of_not_mem
        simp only [List.mem_map, List.mem_filter, decide_eq_true_eq, not_exists, not_and]
        rintro l ⟨_, h1, _⟩ h2
        exact hn (h1.symm.trans h2)
      have hb : ¬ (n == x) = true := by simpa using hn
      rw [hz]
      simp [hb]

theorem count_handlerCalls_hidden {d : Forest} (hnd : d.ids.Nodup) {x : Nat}
    (hx : x ∈ matchedIds d) (b : Bool) (t : Nat) (p : Page)
    (hl : p.listeners = (ready d).listeners) :
    (handlerCalls (hidden b t p).trace).count x =
      (handlerCalls p.trace).count x + (p.eventPath b t).count x := by
  unfold hidden dispatch
  rw [foldl_call_handlerCalls, List.count_append, count_listenersOn hnd hx p hl]

theorem handlerCalls_ready (d : Forest) : handlerCalls (ready d).trace = [] := by
  simp [ready_eq, handlerCalls, List.filterMap_append, List.filterMap_map]

theorem removals_ready (d : Forest) : removals (ready d).trace = [] := by
  simp [ready_eq, removals, List.filterMap_append, List.filterMap_map]

theorem removals_call (l : Listener) (p : Page) :
    removals (l.call p).trace =
      removals p.trace ++ (if l.target ∈ p.document.ids then [l.target] else []) := by
  rw [Listener.call_trace]
  by_cases h : l.target ∈ p.document.ids <;>
    simp [removals, List.filterMap_append, List.filterMap_cons, h]

theorem Listener.call_removedOnce {d : Forest} {x : Nat} {l : Listener} {p : Page}
    (hl : l.target ∈ matchedIds d) (h : p.RemovedOnce d x) : (l.call p).RemovedOnce d x := by
  unfold Page.RemovedOnce at h ⊢
  rw [Listener.call_document, removals_call, Forest.remove_eq_prune]
  by_cases hx : l.target = x
  · right
    refine ⟨fun hm => ?_, ?_⟩
    · have := Forest.not_of_mem_ids_prune hm
      simp [hx] at this
    · rcases h with ⟨h1, h2, _⟩ | ⟨h1, h2⟩
      · simp [hx, h1, h2, List.count_append]
      · simp [hx, h1, h2, List.count_append]
  · have hcount : (removals p.trace ++
        (if l.target ∈ p.document.ids then [l.target] else [])).count x =
        (removals p.trace).count x := by
      have hb : ¬ (l.target == x) = true := by simpa using hx
      by_cases hm : l.target ∈ p.document.ids
      · simp [hm, List.count_append, List.count_cons, hb]
      · simp [hm]
    rw [hcount]
    rcases h with ⟨h1, h2, h3⟩ | ⟨h1, h2⟩
    · left
      have hkx : (fun i => decide (i = l.target)) x = false := by
        simp only [decide_eq_false_iff_not]
        exact fun h => hx h.symm
      have hka : ∀ a ∈ p.document.ancestors x, (fun i => decide (i = l.target)) a = false := by
        intro a ha
        simp only [decide_eq_false_iff_not]
        intro h
        exact h3 a ha (h ▸ hl)
      have hs := Forest.mem_prune_of_path h1 hkx hka
      refine ⟨hs.1, h2, ?_⟩
      rw [hs.2]
      exact h3
    · right
      exact ⟨fun hm => h1 (Forest.mem_ids_of_mem_ids_prune hm), h2⟩

theorem foldl_call_removedOnce {d : Forest} {x : Nat} (ls : List Listener) {p : Page}
    (hls : ∀ l ∈ ls, l.target ∈ matchedIds d) (h : p.RemovedOnce d x) :
    (ls.foldl (fun q l => l.call q) p).RemovedOnce d x := by
  induction ls generalizing p with
  | nil => exact h
  | cons l rest ih =>
    rw [List.foldl_cons]
    exact ih (fun l' hl' => hls l' (by simp [hl']))
      (Listener.call_removedOnce (hls l (by simp)) h)

/-- A matched element that is not inside another matched element is taken out
of the document by at most one `remove()` call, its own. -/
theorem run_removedOnce {d : Forest} {x : Nat} (hx : x ∈ matchedIds d)
    (hanc : ∀ a ∈ d.ancestors x, a ∉ matchedIds d) (b : Bool) (evs : List Nat) :
    (run b evs (ready d)).RemovedOnce d x := by
  induction evs using List.reverseRecOn with
  | nil =>
    left
    simp only [run, List.foldl_nil, removals_ready]
    simp only [ready_eq]
    exact ⟨matchedIds_subset hx, rfl, hanc⟩
  | append_singleton l t ih =>
    rw [run_snoc]
    unfold hidden dispatch
    refine foldl_call_removedOnce _ (fun l' hl' => ?_) ih
    have hl := (mem_listenersOn hl').1
    rw [run_listeners] at hl
    exact target_mem_matchedIds hl

theorem hidden_eq_self_of_no_listeners {b : Bool} {t : Nat} {p : Page}
    (h : p.listeners = []) : hidden b t p = p := by
  unfold hidden dispatch
  have : p.listenersOn "hidden.bs.toast" (p.eventPath b t) = [] := by
    simp [Page.listenersOn, h]
  rw [this]
  rfl

theorem run_eq_self_of_no_listeners {b : Bool} {evs : List Nat} {p : Page}
    (h : p.listeners = []) : run b evs p = p := by
  induction evs using List.reverseRecOn with
  | nil => rfl
  | append_singleton l t ih => rw [run_snoc, ih, hidden_eq_self_of_no_listeners h]

theorem not_mem_flatMap_reached {b : Bool} {d : Forest} {evs : List Nat} {i : Nat}
    (h : i ∉ matchedIds d) : i ∉ evs.flatMap (reached b d) := by
  intro hm
  obtain ⟨t, _, ht⟩ := List.mem_flatMap.1 hm
  exact h (mem_reached.1 ht).2

theorem filterMap_map_none {α β γ : Type} (f : β → Option γ) (g : α → β) (l : List α)
    (h : ∀ a, f (g a) = none) : (l.map g).filterMap f = [] := by
  induction l with
  | nil => rfl
  | cons a rest ih => simp [List.filterMap_cons, h a, ih]

theorem filterMap_map_some {α β γ : Type} (f : β → Option γ) (g : α → β) (k : α → γ)
    (l : List α) (h : ∀ a, f (g a) = some (k a)) : (l.map g).filterMap f = l.map k := by
  induction l with
  | nil => rfl
  | cons a rest ih => simp [List.filterMap_cons, h a, ih]

theorem shows_append (a b : List Action) : shows (a ++ b) = shows a ++ shows b := by
  simp [shows, List.filterMap_append]

theorem constructed_append (a b : List Action) :
    constructed (a ++ b) = constructed a ++ constructed b := by
  simp [constructed, List.filterMap_append]

theorem shows_ready (d : Forest) :
    shows (ready d).trace = (ready d).toasts.map (fun t => t.handle) := by
  have h1 : ∀ l : List Toast,
      shows (l.map (fun t => Action.construct t.handle t.element.id t.options)) = [] := by
    intro l; unfold shows; exact filterMap_map_none _ _ _ (fun _ => rfl)
  have h2 : ∀ l : List Toast,
      shows (l.map (fun t => Action.show t.handle)) = l.map (fun t => t.handle) := by
    intro l; unfold shows; exact filterMap_map_some _ _ _ _ (fun _ => rfl)
  have h3 : ∀ l : List Element,
      shows (l.map (fun e => Action.addEventListener e.id "hidden.bs.toast")) = [] := by
    intro l; unfold shows; exact filterMap_map_none _ _ _ (fun _ => rfl)
  simp only [ready_eq, shows_append, h1, h2, h3, List.nil_append, List.append_nil]

theorem constructed_ready (d : Forest) : constructed (ready d).trace = matchedIds d := by
  have h1 : ∀ l : List Toast,
      constructed (l.map (fun t => Action.construct t.handle t.element.id t.options)) =
        l.map (fun t => t.element.id) := by
    intro l; unfold constructed; exact filterMap_map_some _ _ _ _ (fun _ => rfl)
  have h2 : ∀ l : List Toast, constructed (l.map (fun t => Action.show t.handle)) = [] := by
    intro l; unfold constructed; exact filterMap_map_none _ _ _ (fun _ => rfl)
  have h3 : ∀ l : List Element,
      constructed (l.map (fun e => Action.addEventListener e.id "hidden.bs.toast")) = [] := by
    intro l; unfold constructed; exact filterMap_map_none _ _ _ (fun _ => rfl)
  simp only [ready_eq, constructed_append, h1, h2, h3, List.append_nil, matchedIds]
  conv_rhs => rw [← toastsFrom_element 0 (querySelectorAll "toast" (Page.ofDocument d))]
  rw [List.map_map]
  rfl

theorem mem_constructed {tr : List Action} {i : Nat} :
    i ∈ constructed tr ↔ ∃ h o, Action.construct h i o ∈ tr := by
  simp only [constructed, List.mem_filterMap]
  constructor
  · rintro ⟨a, ha, h⟩
    cases a <;> simp at h
    subst h
    exact ⟨_, _, ha⟩
  · rintro ⟨h, o, ha⟩
    exact ⟨_, ha, rfl⟩

theorem hidden_ready_document {d : Forest} (hnd : d.ids.Nodup) (b : Bool) (x : Nat) :
    (hidden b x (ready d)).document = d.prune (fun i => decide (i ∈ reached b d x)) := by
  have h := (run_document hnd b [x]).2
  simp only [List.flatMap_cons, List.flatMap_nil, List.append_nil] at h
  exact h

/-! ## The claims -/

/-- C1: for every document, the initializer constructs one widget for each
element carrying the class `toast`, in document order and bound to that
element, and calls `show` exactly once on each of these widgets. -/
theorem C1_one_widget_per_marker_each_shown_once (d : Forest) :
    (∀ e, e ∈ querySelectorAll "toast" (Page.ofDocument d) ↔
        e ∈ d.elements ∧ "toast" ∈ e.classList) ∧
      (ready d).toasts.map (fun t => t.element) = querySelectorAll "toast" (Page.ofDocument d) ∧
      (ready d).toasts.length = (querySelectorAll "toast" (Page.ofDocument d)).length ∧
      constructed (ready d).trace = matchedIds d ∧
      (ready d).toasts.map (fun t => t.handle) = List.range (ready d).toasts.length ∧
      shows (ready d).trace = (ready d).toasts.map (fun t => t.handle) ∧
      (∀ t ∈ (ready d).toasts, (shows (ready d).trace).count t.handle = 1) := by
  have hh : (ready d).toasts.map (fun t => t.handle) = List.range (ready d).toasts.length := by
    simp only [ready_eq, toastsFrom_handle, toastsFrom_length]
    exact Eq.symm (List.range_eq_range' _)
  refine ⟨fun e => mem_querySelectorAll, ?_, ?_, constructed_ready d, hh, shows_ready d, ?_⟩
  · simp only [ready_eq, toastsFrom_element]
  · simp only [ready_eq, toastsFrom_length]
  · intro t ht
    rw [shows_ready, hh]
    apply List.count_eq_one_of_mem (List.nodup_range _)
    rw [← hh]
    exact List.mem_map_of_mem (fun t => t.handle) ht

/-- C6: every widget the initializer constructs gets the options
`autohide: true` and `delay: 5000`, whatever the element and its position. -/
theorem C6_uniform_options (d : Forest) :
    (∀ t ∈ (ready d).toasts, t.options = { autohide := true, delay := 5000 }) ∧
      (∀ h el o, Action.construct h el o ∈ (ready d).trace →
        o = { autohide := true, delay := 5000 }) := by
  have h1 : ∀ t ∈ (ready d).toasts, t.options = { autohide := true, delay := 5000 } := by
    simp only [ready_eq]
    exact toastsFrom_options 0 _
  refine ⟨h1, fun h el o ha => ?_⟩
  rcases ready_trace_mem d _ ha with ⟨t, ht, heq⟩ | ⟨t, _, heq⟩ | ⟨e, _, heq⟩
  · simp only [Action.construct.injEq] at heq
    rw [heq.2.2]
    exact h1 t ht
  · exact Action.noConfusion heq
  · exact Action.noConfusion heq

/-- C5: on a document without any element of class `toast` the initializer
does nothing: no widget, no `show`, no listener, the page is unchanged, and no
later hide-completion event runs a callback or changes the page. -/
theorem C5_no_marker_is_noop (d : Forest)
    (h : querySelectorAll "toast" (Page.ofDocument d) = []) :
    ready d = Page.ofDocument d ∧
      (ready d).toasts = [] ∧ constructed (ready d).trace = [] ∧
      shows (ready d).trace = [] ∧ (ready d).listeners = [] ∧ (ready d).document = d ∧
      ∀ b evs, run b evs (ready d) = Page.ofDocument d ∧
        handlerCalls (run b evs (ready d)).trace = [] := by
  have h0 : ready d = Page.ofDocument d := by
    rw [ready_eq, h]
    rfl
  refine ⟨h0, ?_, ?_, ?_, ?_, ?_, ?_⟩
  · rw [h0]; rfl
  · rw [h0]; rfl
  · rw [h0]; rfl
  · rw [h0]; rfl
  · rw [h0]; rfl
  · intro b evs
    have hl : (ready d).listeners = [] := by rw [h0]; rfl
    rw [run_eq_self_of_no_listeners hl, h0]
    exact ⟨rfl, rfl⟩

/-- Witness for C5 on a page without toasts. -/
theorem C5_no_marker_is_noop_witness :
    querySelectorAll "toast" (Page.ofDocument plainPage) = [] ∧
      (ready plainPage = Page.ofDocument plainPage ∧
        (ready plainPage).toasts = [] ∧ constructed (ready plainPage).trace = [] ∧
        shows (ready plainPage).trace = [] ∧ (ready plainPage).listeners = [] ∧
        (ready plainPage).document = plainPage ∧
        ∀ b evs, run b evs (ready plainPage) = Page.ofDocument plainPage ∧
          handlerCalls (run b evs (ready plainPage)).trace = []) :=
  ⟨by decide, C5_no_marker_is_noop plainPage (by decide)⟩

/-- C7 fails as stated: for a single toast the initializer's actions are
construct, show, then `addEventListener`; the registration comes after the
`show` call for the same element. -/
theorem C7_registration_not_before_show :
    (ready toastWithBody).toasts =
        [{ handle := 0, element := ⟨1, ["toast"]⟩, options := ⟨true, 5000⟩ }] ∧
      (ready toastWithBody).trace =
        [Action.construct 0 1 ⟨true, 5000⟩, Action.show 0,
          Action.addEventListener 1 "hidden.bs.toast"] ∧
      (ready toastWithBody).trace.indexOf (Action.show 0) <
        (ready toastWithBody).trace.indexOf (Action.addEventListener 1 "hidden.bs.toast") := by
  decide

/-- C7, amended: the initializer first constructs all widgets, then calls
`show` on all of them, and only then registers the hide-completion listeners,
so every registration follows every `show` call; no callback runs before the
initializer returns. -/
theorem C7_registration_follows_show (d : Forest) :
    (ready d).trace =
        (ready d).toasts.map (fun t => Action.construct t.handle t.element.id t.options)
          ++ (ready d).toasts.map (fun t => Action.show t.handle)
          ++ (querySelectorAll "toast" (Page.ofDocument d)).map
            (fun e => Action.addEventListener e.id "hidden.bs.toast") ∧
      handlerCalls (ready d).trace = [] := by
  refine ⟨?_, handlerCalls_ready d⟩
  simp only [ready_eq]

/-- C8 fails as stated: the listener is registered without `once`, so two
hide-completion events delivered to the same toast run its callback twice. -/
theorem C8_handler_runs_twice :
    1 ∈ matchedIds toastWithBody ∧
      handlerCalls (run false [1, 1] (ready toastWithBody)).trace = [1, 1] ∧
      (handlerCalls (run false [1, 1] (ready toastWithBody)).trace).count 1 = 2 := by
  decide

/-- C8, amended: the callback of a matched element runs once for every
hide-completion event delivered to that element (so at least as often as such
events are delivered, and exactly as often when events do not bubble), and
all a run of the callback does is call `remove()` on its element: widgets and
listeners are untouched and the document loses that element's subtree. -/
theorem C8_handler_runs_per_event (d : Forest) (b : Bool) (evs : List Nat) (x : Nat)
    (hnd : d.ids.Nodup) (hx : x ∈ matchedIds d) :
    evs.count x ≤ (handlerCalls (run b evs (ready d)).trace).count x ∧
      (b = false → (handlerCalls (run b evs (ready d)).trace).count x = evs.count x) ∧
      (∀ (l : Listener) (p : Page),
        (l.call p).document = p.document.remove l.target ∧
        (l.call p).toasts = p.toasts ∧ (l.call p).listeners = p.listeners ∧
        (l.call p).trace = p.trace ++ [Action.handler l.target,
          Action.remove l.target (decide (l.target ∈ p.document.ids))]) := by
  refine ⟨?_, ?_, fun l p => ⟨Listener.call_document l p, Listener.call_toasts l p,
    Listener.call_listeners l p, Listener.call_trace l p⟩⟩
  · induction evs using List.reverseRecOn with
    | nil => simp
    | append_singleton l t ih =>
      rw [run_snoc, count_handlerCalls_hidden hnd hx b t _ (run_listeners b l _),
        List.count_append]
      have : [t].count x ≤ ((run b l (ready d)).eventPath b t).count x := by
        cases b with
        | false => simp [Page.eventPath]
        | true =>
          simp only [Page.eventPath, if_true]
          rw [List.count_cons, List.count_cons]
          simp
      omega
  · intro hb
    subst hb
    induction evs using List.reverseRecOn with
    | nil => simp [run, handlerCalls_ready]
    | append_singleton l t ih =>
      rw [run_snoc, count_handlerCalls_hidden hnd hx false t _ (run_listeners false l _),
        List.count_append, ih]
      simp [Page.eventPath]

/-- Witness for C8 on the three-toast page, with bubbling events. -/
theorem C8_handler_runs_per_event_witness :
    threeToasts.ids.Nodup ∧ 2 ∈ matchedIds threeToasts ∧
      [2, 1, 2].count 2 ≤
        (handlerCalls (run true [2, 1, 2] (ready threeToasts)).trace).count 2 :=
  ⟨by decide, by decide,
    (C8_handler_runs_per_event threeToasts true [2, 1, 2] 2 (by decide) (by decide)).1⟩

/-- C2 fails as stated: the body of a toast does not carry the class `toast`,
yet it leaves the document with the toast when the toast's hide completes. -/
theorem C2_body_removed_with_toast :
    (⟨2, ["toast-body"]⟩ : Element) ∈ toastWithBody.elements ∧
      "toast" ∉ (⟨2, ["toast-body"]⟩ : Element).classList ∧
      2 ∈ (ready toastWithBody).document.ids ∧
      2 ∉ (run false [1] (ready toastWithBody)).document.ids := by
  decide

/-- C2, amended: an element without the class `toast` is never passed to the
widget constructor and `remove()` is never called on it; it stays in the
document through every sequence of hide-completion events provided it does
not lie inside an element of class `toast`. -/
theorem C2_non_marker_untouched (d : Forest) (b : Bool) (evs : List Nat) (e : Element)
    (hnd : d.ids.Nodup) (he : e ∈ d.elements) (hc : "toast" ∉ e.classList) :
    (∀ t ∈ (run b evs (ready d)).toasts, t.element ≠ e) ∧
      e.id ∉ constructed (run b evs (ready d)).trace ∧
      (∀ c, Action.remove e.id c ∉ (run b evs (ready d)).trace) ∧
      ((∀ a ∈ d.ancestors e.id, a ∉ matchedIds d) →
        e.id ∈ (run b evs (ready d)).document.ids) := by
  have hm : e.id ∉ matchedIds d := not_mem_matchedIds hnd he hc
  refine ⟨?_, ?_, ?_, ?_⟩
  · intro t ht heq
    rw [run_toasts] at ht
    have := ready_toast_element_mem ht
    rw [heq, mem_querySelectorAll] at this
    exact hc this.2
  · intro hcon
    obtain ⟨h, o, ha⟩ := mem_constructed.1 hcon
    rcases run_trace_mem d b evs _ ha with h1 | ⟨x, _, h1 | ⟨c, h1⟩⟩
    · exact hm (by rw [← constructed_ready]; exact mem_constructed.2 ⟨h, o, h1⟩)
    · exact Action.noConfusion h1
    · exact Action.noConfusion h1
  · intro c ha
    rcases run_trace_mem d b evs _ ha with h1 | ⟨x, hx, h1 | ⟨c', h1⟩⟩
    · rcases ready_trace_mem d _ h1 with ⟨t, _, heq⟩ | ⟨t, _, heq⟩ | ⟨e', _, heq⟩ <;>
        exact Action.noConfusion heq
    · exact Action.noConfusion h1
    · simp only [Action.remove.injEq] at h1
      exact hm (h1.1 ▸ hx)
  · intro hanc
    rw [(run_document hnd b evs).2]
    have hid : e.id ∈ d.ids := List.mem_map_of_mem (fun e => e.id) he
    refine (Forest.mem_prune_of_path hid ?_ ?_).1
    · exact decide_eq_false (not_mem_flatMap_reached hm)
    · intro a ha
      exact decide_eq_false (not_mem_flatMap_reached (hanc a ha))

/-- Witness for C2: the paragraph next to the toast container stays. -/
theorem C2_non_marker_untouched_witness :
    threeToasts.ids.Nodup ∧ (⟨5, ["lead"]⟩ : Element) ∈ threeToasts.elements ∧
      "toast" ∉ (⟨5, ["lead"]⟩ : Element).classList ∧
      (∀ a ∈ threeToasts.ancestors 5, a ∉ matchedIds threeToasts) ∧
      5 ∈ (run true [2, 1, 3] (ready threeToasts)).document.ids :=
  ⟨by decide, by decide, by decide, by decide,
    (C2_non_marker_untouched threeToasts true [2, 1, 3] ⟨5, ["lead"]⟩ (by decide) (by decide)
      (by decide)).2.2.2 (by decide)⟩

/-- C3 fails as stated: a toast nested inside another toast leaves the
document when the outer toast's hide completes, without any hide-completion
event of its own; and when events bubble, the outer toast is removed by the
inner toast's event. -/
theorem C3_removed_without_own_event :
    2 ∈ matchedIds nestedToasts ∧ 2 ∉ [1] ∧
      2 ∉ (run false [1] (ready nestedToasts)).document.ids ∧
      1 ∈ matchedIds nestedToasts ∧ 1 ∉ [2] ∧
      1 ∉ (run true [2] (ready nestedToasts)).document.ids := by
  decide

/-- C3, amended: for a matched element `x` that is not inside another matched
element, `x` stays in the document in every state reached by events none of
which is delivered to `x` (or, when events bubble, to an element inside `x`),
and in every state reached after a hide-completion event for `x` the element
is out of the document, exactly one `remove()` call having taken it out. -/
theorem C3_removed_once_after_completion (d : Forest) (b : Bool) (evs : List Nat) (x : Nat)
    (hnd : d.ids.Nodup) (hx : x ∈ matchedIds d)
    (hanc : ∀ a ∈ d.ancestors x, a ∉ matchedIds d) :
    ((∀ t ∈ evs, t ≠ x ∧ (b = true → x ∉ d.ancestors t)) →
        x ∈ (run b evs (ready d)).document.ids ∧
          (removals (run b evs (ready d)).trace).count x = 0) ∧
      (x ∈ evs →
        x ∉ (run b evs (ready d)).document.ids ∧
          (removals (run b evs (ready d)).trace).count x = 1) := by
  have hG := run_removedOnce hx hanc b evs
  have hdoc := (run_document hnd b evs).2
  constructor
  · intro hev
    have hin : x ∈ (run b evs (ready d)).document.ids := by
      rw [hdoc]
      refine (Forest.mem_prune_of_path (matchedIds_subset hx) ?_ ?_).1
      · apply decide_eq_false
        intro hm
        obtain ⟨t, ht, hxt⟩ := List.mem_flatMap.1 hm
        have h1 := (mem_reached.1 hxt).1
        cases b with
        | false =>
          simp only [Bool.false_eq_true, if_false, List.mem_singleton] at h1
          exact (hev t ht).1 h1.symm
        | true =>
          simp only [if_true, List.mem_cons] at h1
          rcases h1 with h1 | h1
          · exact (hev t ht).1 h1.symm
          · exact (hev t ht).2 rfl h1
      · intro a ha
        exact decide_eq_false (not_mem_flatMap_reached (hanc a ha))
    rcases hG with ⟨_, h2, _⟩ | ⟨h1, _⟩
    · exact ⟨hin, h2⟩
    · exact absurd hin h1
  · intro hxe
    have hout : x ∉ (run b evs (ready d)).document.ids := by
      rw [hdoc]
      intro hm
      have hk := Forest.not_of_mem_ids_prune hm
      have : x ∈ evs.flatMap (reached b d) := by
        refine List.mem_flatMap.2 ⟨x, hxe, mem_reached.2 ⟨?_, hx⟩⟩
        cases b <;> simp
      rw [decide_eq_true this] at hk
      exact Bool.noConfusion hk
    rcases hG with ⟨h1, _, _⟩ | ⟨_, h2⟩
    · exact absurd h1 hout
    · exact ⟨hout, h2⟩

/-- Witness for C3 on the three-toast page: toast 2 after events for 1, 2, 2. -/
theorem C3_removed_once_after_completion_witness :
    threeToasts.ids.Nodup ∧ 2 ∈ matchedIds threeToasts ∧
      (∀ a ∈ threeToasts.ancestors 2, a ∉ matchedIds threeToasts) ∧ 2 ∈ [1, 2, 2] ∧
      (2 ∉ (run true [1, 2, 2] (ready threeToasts)).document.ids ∧
        (removals (run true [1, 2, 2] (ready threeToasts)).trace).count 2 = 1) :=
  ⟨by decide, by decide, by decide, by decide,
    (C3_removed_once_after_completion threeToasts true [1, 2, 2] 2 (by decide) (by decide)
      (by decide)).2 (by decide)⟩

/-- C4 fails as stated: with one toast nested in another, the hide-completion
of the outer toast takes the inner one out of the document, and, when events
bubble, the hide-completion of the inner toast removes the outer one. -/
theorem C4_nested_toasts_interact :
    1 ∈ matchedIds nestedToasts ∧ 2 ∈ matchedIds nestedToasts ∧
      2 ∈ (ready nestedToasts).document.ids ∧
      2 ∉ (hidden false 1 (ready nestedToasts)).document.ids ∧
      1 ∈ (ready nestedToasts).document.ids ∧
      1 ∉ (hidden true 2 (ready nestedToasts)).document.ids := by
  decide

/-- C4, amended: delivering the hide-completion event for `x` leaves in the
document every element `y` that is neither a matched element the event
reaches (`x` itself and, when the event bubbles, the matched ancestors of `x`)
nor inside one; in particular, when the matched elements are `A`, `B`, `C` and
none of them lies inside another, three widgets exist, all three were shown,
and after hide-completion for `B` only, `B` is out of the document while `A`
and `C` are still in it. -/
theorem C4_other_toasts_stay (d : Forest) (b : Bool) (hnd : d.ids.Nodup) :
    (∀ x y, y ∈ d.ids → (∀ k ∈ reached b d x, k ∉ y :: d.ancestors y) →
        y ∈ (hidden b x (ready d)).document.ids) ∧
      (∀ A B C : Element, querySelectorAll "toast" (Page.ofDocument d) = [A, B, C] →
        (∀ x ∈ matchedIds d, ∀ a ∈ d.ancestors x, a ∉ matchedIds d) →
        (ready d).toasts.length = 3 ∧ shows (ready d).trace = [0, 1, 2] ∧
          B.id ∉ (hidden b B.id (ready d)).document.ids ∧
          A.id ∈ (hidden b B.id (ready d)).document.ids ∧
          C.id ∈ (hidden b B.id (ready d)).document.ids) := by
  have hfirst : ∀ x y, y ∈ d.ids → (∀ k ∈ reached b d x, k ∉ y :: d.ancestors y) →
      y ∈ (hidden b x (ready d)).document.ids := by
    intro x y hy hk
    rw [hidden_ready_document hnd]
    refine (Forest.mem_prune_of_path hy ?_ ?_).1
    · exact decide_eq_false (fun h => hk y h (by simp))
    · intro a ha
      exact decide_eq_false (fun h => hk a h (by simp [ha]))
  refine ⟨hfirst, ?_⟩
  intro A B C hq hnest
  have hM : matchedIds d = [A.id, B.id, C.id] := by simp [matchedIds, hq]
  have hMnd : [A.id, B.id, C.id].Nodup := hM ▸ matchedIds_nodup hnd
  simp only [List.nodup_cons, List.mem_cons, List.mem_singleton, List.not_mem_nil,
    not_or, or_false] at hMnd
  obtain ⟨⟨hAB, hAC⟩, hBC, _⟩ := hMnd
  have hA : A.id ∈ matchedIds d := by simp [hM]
  have hB : B.id ∈ matchedIds d := by simp [hM]
  have hC : C.id ∈ matchedIds d := by simp [hM]
  have hreach : ∀ k ∈ reached b d B.id, k = B.id := by
    intro k hk
    obtain ⟨h1, h2⟩ := mem_reached.1 hk
    cases b with
    | false => simpa using h1
    | true =>
      simp only [if_true, List.mem_cons] at h1
      rcases h1 with h1 | h1
      · exact h1
      · exact absurd h2 (hnest _ hB k h1)
  have hstay : ∀ y ∈ matchedIds d, y ≠ B.id → y ∈ (hidden b B.id (ready d)).document.ids := by
    intro y hy hne
    refine hfirst B.id y (matchedIds_subset hy) (fun k hk => ?_)
    rw [hreach k hk]
    simp only [List.mem_cons, not_or]
    exact ⟨fun h => hne h.symm, fun h => hnest y hy _ h hB⟩
  refine ⟨?_, ?_, ?_, hstay _ hA hAB, hstay _ hC (fun h => hBC h.symm)⟩
  · simp only [ready_eq, toastsFrom_length, hq, List.length_cons, List.length_nil]
  · rw [shows_ready]
    simp only [ready_eq, hq, toastsFrom, List.map_cons, List.map_nil]
  · rw [hidden_ready_document hnd]
    intro hm
    have hk := Forest.not_of_mem_ids_prune hm
    have : B.id ∈ reached b d B.id := by
      refine mem_reached.2 ⟨?_, hB⟩
      cases b <;> simp
    rw [decide_eq_true this] at hk
    exact Bool.noConfusion hk

/-- Witness for C4 on the three-toast page, with bubbling events. -/
theorem C4_other_toasts_stay_witness :
    threeToasts.ids.Nodup ∧
      querySelectorAll "toast" (Page.ofDocument threeToasts) =
        [⟨1, ["toast"]⟩, ⟨2, ["toast", "fade"]⟩, ⟨3, ["toast"]⟩] ∧
      (∀ x ∈ matchedIds threeToasts, ∀ a ∈ threeToasts.ancestors x,
        a ∉ matchedIds threeToasts) ∧
      ((ready threeToasts).toasts.length = 3 ∧ shows (ready threeToasts).trace = [0, 1, 2] ∧
        2 ∉ (hidden true 2 (ready threeToasts)).document.ids ∧
        1 ∈ (hidden true 2 (ready threeToasts)).document.ids ∧
        3 ∈ (hidden true 2 (ready threeToasts)).document.ids) :=
  ⟨by decide, by decide, by decide,
    (C4_other_toasts_stay threeToasts true (by decide)).2 ⟨1, ["toast"]⟩
      ⟨2, ["toast", "fade"]⟩ ⟨3, ["toast"]⟩ (by decide) (by decide)⟩

/-- C9: the document left by hide-completion events does not depend on the
order in which they are delivered: `x` then `y` and `y` then `x` leave the
same document, and so do any two orderings of the same events. -/
theorem C9_completion_order_irrelevant (d : Forest) (b : Bool) (hnd : d.ids.Nodup) :
    (∀ x y, (run b [x, y] (ready d)).document = (run b [y, x] (ready d)).document) ∧
      (∀ evs evs' : List Nat, evs.Perm evs' →
        (run b evs (ready d)).document = (run b evs' (ready d)).document) := by
  have hperm : ∀ evs evs' : List Nat, evs.Perm evs' →
      (run b evs (ready d)).document = (run b evs' (ready d)).document := by
    intro evs evs' h
    rw [(run_document hnd b evs).2, (run_document hnd b evs').2]
    apply Forest.prune_congr
    intro i _
    apply decide_eq_decide.2
    simp only [List.mem_flatMap]
    constructor
    · rintro ⟨t, ht, h1⟩
      exact ⟨t, h.subset ht, h1⟩
    · rintro ⟨t, ht, h1⟩
      exact ⟨t, h.symm.subset ht, h1⟩
  exact ⟨fun x y => hperm _ _ (List.Perm.swap y x []), hperm⟩

/-- Witness for C9 on nested toasts with bubbling events. -/
theorem C9_completion_order_irrelevant_witness :
    nestedToasts.ids.Nodup ∧
      (run true [1, 2] (ready nestedToasts)).document =
        (run true [2, 1] (ready nestedToasts)).document :=
  ⟨by decide, (C9_completion_order_irrelevant nestedToasts true (by decide)).1 1 2⟩

/-- C10: delivering the hide-completion event to an element a second time
leaves the document as the first delivery left it, also after any earlier
events. -/
theorem C10_second_completion_changes_nothing (d : Forest) (b : Bool) (x : Nat)
    (hnd : d.ids.Nodup) :
    (run b [x, x] (ready d)).document = (run b [x] (ready d)).document ∧
      (∀ pre : List Nat, (run b (pre ++ [x, x]) (ready d)).document =
        (run b (pre ++ [x]) (ready d)).document) := by
  have hgen : ∀ pre : List Nat, (run b (pre ++ [x, x]) (ready d)).document =
      (run b (pre ++ [x]) (ready d)).document := by
    intro pre
    rw [(run_document hnd b _).2, (run_document hnd b _).2]
    apply Forest.prune_congr
    intro i _
    apply decide_eq_decide.2
    simp only [List.mem_flatMap, List.mem_append, List.mem_cons, List.mem_singleton,
      List.not_mem_nil, or_false, or_self]
  exact ⟨hgen [], hgen⟩

/-- Witness for C10 on nested toasts with bubbling events. -/
theorem C10_second_completion_changes_nothing_witness :
    nestedToasts.ids.Nodup ∧
      (run true [2, 2] (ready nestedToasts)).document =
        (run true [2] (ready nestedToasts)).document :=
  ⟨by decide, (C10_second_completion_changes_nothing nestedToasts true 2 (by decide)).1⟩

end ToastPage
